import Mathlib

/-!
Verification of the `Levenshtein` class in `src/Levenshtein.py`.

The class computes, for a source sequence `s` (length `m`), a target sequence
`t` (length `n`) and a cost triple `(insertion_cost, deletion_cost,
substitution_cost)` of non-negative integers, the dynamic-programming matrix
`D` of size `(m+1) × (n+1)` (`__edit_distance`), the minimum edit distance
`D[m][n]` (`distance`), and a backtrace of edit operations (`__backtrace`,
`edit_ops`).

Sequences are embedded as `List α` for a type `α` with decidable equality
(Python only needs `==` on symbols), and the integer costs as `ℕ`
(the docstring stipulates three integers, and the specification restricts to
non-negative ones).
-/

namespace Levenshtein

variable {α : Type} [DecidableEq α]

/-- Computation of row `i+1` of the distance matrix from row `i` (`prev`),
given the symbol `a = source[i]` (as `s.get? i`, always `some` in range), the
target, the costs, and the value `base = (i+1) * deletion_cost` that the
column-0 initialisation loop of `__edit_distance` put at `D[i+1][0]`.
Cell `j+1` is filled exactly as the inner loop of `__edit_distance` does:
if `source[i] == target[j]` copy the diagonal `prev j`, otherwise take
`min(insertion, deletion, substitution)` with
`insertion = D[i+1][j] + insertion_cost`, `deletion = D[i][j+1] + deletion_cost`,
`substitution = D[i][j] + substitution_cost`. -/
def matRow (prev : ℕ → ℕ) (a : Option α) (t : List α) (ic dc sc : ℕ) (base : ℕ) : ℕ → ℕ
  | 0 => base
  | j + 1 =>
    if a = t.get? j then prev j
    else min (matRow prev a t ic dc sc base j + ic) (min (prev (j + 1) + dc) (prev j + sc))

/-- Embedding of `Levenshtein.__edit_distance`: `matD s t ic dc sc i j` is the
cell `D[i][j]` of the matrix the Python code builds.  Row 0 is the
`D[0][j] = j * insertion_cost` initialisation; row `i+1` is built from row `i`
by `matRow`, with `D[i+1][0] = (i+1) * deletion_cost` from the column-0
initialisation.  (The claims only ever read cells with `i ≤ s.length` and
`j ≤ t.length`, the cells the Python matrix has.) -/
def matD (s t : List α) (ic dc sc : ℕ) : ℕ → ℕ → ℕ
  | 0 => fun j => j * ic
  | i + 1 => matRow (matD s t ic dc sc i) (s.get? i) t ic dc sc ((i + 1) * dc)

/-- Embedding of `Levenshtein.distance`: `self.D[-1][-1]`, the cell at indices
`(len(source), len(target))` of the `(m+1) × (n+1)` matrix. -/
def distance (s t : List α) (ic dc sc : ℕ) : ℕ :=
  matD s t ic dc sc s.length t.length

/-- The four values of the `"type"` field of an edit-operation record. -/
inductive EType : Type where
  | Match : EType
  | Substitution : EType
  | Deletion : EType
  | Insertion : EType
deriving DecidableEq

/-- An edit-operation record `{"type": ..., "i": ..., "j": ...}` as appended
to the `edits` list by `Levenshtein.__backtrace`. -/
structure Edit : Type where
  type : EType
  i : ℕ
  j : ℕ
deriving DecidableEq

/-- Cost charged to one edit operation by the cost model of the specification:
a Match is free, the others cost the corresponding configured cost. -/
def opCost (ic dc sc : ℕ) (e : Edit) : ℕ :=
  match e.type with
  | EType.Match => 0
  | EType.Substitution => sc
  | EType.Deletion => dc
  | EType.Insertion => ic

/-- One iteration of the `while` loop of `Levenshtein.__backtrace` at cell
`(i, j)`: the four `if/elif` guards are tested in the order Match,
Substitution, Deletion, Insertion, and the first that holds yields the
appended record together with the updated `(i, j)`.  The guards compare costs
read from the matrix `D`; no symbol of source or target is consulted (the
Match test is cost equality with the diagonal, not symbol equality).  If no
guard holds the loop body changes nothing; that case is `none` here. -/
def backtraceStep (ic dc sc : ℕ) (D : ℕ → ℕ → ℕ) (i j : ℕ) : Option (Edit × ℕ × ℕ) :=
  if (i ≠ 0 ∧ j ≠ 0) ∧ D i j = D (i - 1) (j - 1) then
    some (⟨EType.Match, i - 1, j - 1⟩, i - 1, j - 1)
  else if (i ≠ 0 ∧ j ≠ 0) ∧ D i j = D (i - 1) (j - 1) + sc then
    some (⟨EType.Substitution, i - 1, j - 1⟩, i - 1, j - 1)
  else if i ≠ 0 ∧ D i j = D (i - 1) j + dc then
    some (⟨EType.Deletion, i - 1, j⟩, i - 1, j)
  else if j ≠ 0 ∧ D i j = D i (j - 1) + ic then
    some (⟨EType.Insertion, i, j - 1⟩, i, j - 1)
  else
    none

/-- Embedding of the `while not (i == 0 and j == 0)` loop of
`Levenshtein.__backtrace`, producing the list of records in the order they are
appended (before the final `reverse`).  The loop itself has no bound, so it is
given fuel: each iteration either performs the step selected by
`backtraceStep`, or — when all four guards are false — re-runs with the state
unchanged, which in Python loops forever; exhausted fuel returns `none`,
representing that divergence. -/
def backtraceAux (ic dc sc : ℕ) (D : ℕ → ℕ → ℕ) : ℕ → ℕ → ℕ → Option (List Edit)
  | 0, i, j => if i = 0 ∧ j = 0 then some [] else none
  | fuel + 1, i, j =>
    if i = 0 ∧ j = 0 then some []
    else
      match backtraceStep ic dc sc D i j with
      | some (e, i2, j2) => (backtraceAux ic dc sc D fuel i2 j2).map (fun es => e :: es)
      | none => backtraceAux ic dc sc D fuel i j

/-- The `edits` list of `Levenshtein.__backtrace` before the final `reverse`,
started at `(len(source), len(target))` on the matrix built by
`__edit_distance`.  Fuel `len(source) + len(target)` is enough because every
selected step strictly decreases `i + j` (proved below). -/
def editsRaw (s t : List α) (ic dc sc : ℕ) : Option (List Edit) :=
  backtraceAux ic dc sc (matD s t ic dc sc) (s.length + t.length) s.length t.length

/-- Embedding of `Levenshtein.edit_ops`: the backtraced records in
chronological (start-to-end) order, i.e. `editsRaw` reversed. -/
def editOps (s t : List α) (ic dc sc : ℕ) : Option (List Edit) :=
  (editsRaw s t ic dc sc).map List.reverse

/-- Replay of a list of operation types against a source and a target, with
the semantics stated by the specification for the result guarantee: Match and
Substitution consume one symbol from each side, Deletion consumes one source
symbol only, Insertion consumes one target symbol only; Substitution and
Insertion write the consumed target symbol, while a Match keeps (writes) the
consumed source symbol.  Any shape mismatch yields `none`. -/
def replayS : List EType → List α → List α → Option (List α)
  | [], [], [] => some []
  | EType.Match :: ops, a :: s, _ :: t => (replayS ops s t).map (fun r => a :: r)
  | EType.Substitution :: ops, _ :: s, b :: t => (replayS ops s t).map (fun r => b :: r)
  | EType.Deletion :: ops, _ :: s, t => replayS ops s t
  | EType.Insertion :: ops, s, b :: t => (replayS ops s t).map (fun r => b :: r)
  | _, _, _ => none

/-- Replay identical to `replayS` except that a Match writes the consumed
target-side symbol instead of the source-side one.  The two agree whenever
every Match pairs equal symbols; `replayT` is the semantics under which the
backtrace output always rebuilds the target. -/
def replayT : List EType → List α → List α → Option (List α)
  | [], [], [] => some []
  | EType.Match :: ops, _ :: s, b :: t => (replayT ops s t).map (fun r => b :: r)
  | EType.Substitution :: ops, _ :: s, b :: t => (replayT ops s t).map (fun r => b :: r)
  | EType.Deletion :: ops, _ :: s, t => replayT ops s t
  | EType.Insertion :: ops, s, b :: t => (replayT ops s t).map (fun r => b :: r)
  | _, _, _ => none

/-- Specification-side cost relation: `ECost ic dc sc s t c` holds when some
sequence of edit operations transforms `s` into `t` at total cost `c`, where
matching two equal symbols is free, substituting costs `sc`, deleting a source
symbol costs `dc` and inserting a target symbol costs `ic`.  The minimal such
`c` is the specification's "minimal total cost of transforming source into
target". -/
inductive ECost (ic dc sc : ℕ) : List α → List α → ℕ → Prop where
  | nil : ECost ic dc sc [] [] 0
  | mtch (a : α) {s t : List α} {c : ℕ} :
      ECost ic dc sc s t c → ECost ic dc sc (a :: s) (a :: t) c
  | subst (a b : α) {s t : List α} {c : ℕ} :
      ECost ic dc sc s t c → ECost ic dc sc (a :: s) (b :: t) (c + sc)
  | del (a : α) {s t : List α} {c : ℕ} :
      ECost ic dc sc s t c → ECost ic dc sc (a :: s) t (c + dc)
  | ins (b : α) {s t : List α} {c : ℕ} :
      ECost ic dc sc s t c → ECost ic dc sc s (b :: t) (c + ic)

/-- The forced-match recurrence of `__edit_distance` recast as a structural
recursion that peels symbols from the front; `matD` equals it on reversed
prefixes (proved below), which is how the matrix cells are related to the
specification relation `ECost`. -/
def levRec (ic dc sc : ℕ) : List α → List α → ℕ
  | [], t => t.length * ic
  | _ :: s, [] => (s.length + 1) * dc
  | a :: s, b :: t =>
    if a = b then levRec ic dc sc s t
    else min (levRec ic dc sc (a :: s) t + ic)
      (min (levRec ic dc sc s (b :: t) + dc) (levRec ic dc sc s t + sc))
termination_by s t => (s.length, t.length)

/-- Index bounds satisfied by every record the backtrace emits. -/
def edBound (s t : List α) (e : Edit) : Prop :=
  match e.type with
  | EType.Match => e.i < s.length ∧ e.j < t.length
  | EType.Substitution => e.i < s.length ∧ e.j < t.length
  | EType.Deletion => e.i < s.length ∧ e.j ≤ t.length
  | EType.Insertion => e.i ≤ s.length ∧ e.j < t.length

/-- A tampered distance matrix on which no backtrace guard holds at `(1, 1)`
with costs `(1, 1, 1)`: the cell value 5 is not reachable from its neighbours
by any of the four cost equations. -/
def Dbad : ℕ → ℕ → ℕ := fun i j => if i = 1 ∧ j = 1 then 5 else 0

/-- The backtrace loop, started at `(i, j)` on matrix `D`, runs forever: with
any amount of fuel the embedding reports divergence. -/
def loopsForever (ic dc sc : ℕ) (D : ℕ → ℕ → ℕ) (i j : ℕ) : Prop :=
  ∀ fuel : ℕ, backtraceAux ic dc sc D fuel i j = none

/-! Equational lemmas for the matrix. -/

theorem matD_zero (s t : List α) (ic dc sc j : ℕ) : matD s t ic dc sc 0 j = j * ic := rfl

theorem matD_succ_zero (s t : List α) (ic dc sc i : ℕ) :
    matD s t ic dc sc (i + 1) 0 = (i + 1) * dc := rfl

theorem matD_succ_succ (s t : List α) (ic dc sc i j : ℕ) :
    matD s t ic dc sc (i + 1) (j + 1) =
      if s.get? i = t.get? j then matD s t ic dc sc i j
      else min (matD s t ic dc sc (i + 1) j + ic)
        (min (matD s t ic dc sc i (j + 1) + dc) (matD s t ic dc sc i j + sc)) := rfl

/-! Equational lemmas for `levRec`. -/

theorem levRec_nil_left (ic dc sc : ℕ) (t : List α) :
    levRec ic dc sc [] t = t.length * ic := by
  simp [levRec]

theorem levRec_cons_nil (ic dc sc : ℕ) (a : α) (s : List α) :
    levRec ic dc sc (a :: s) [] = (s.length + 1) * dc := by
  simp [levRec]

theorem levRec_cons_cons (ic dc sc : ℕ) (a b : α) (s t : List α) :
    levRec ic dc sc (a :: s) (b :: t) =
      if a = b then levRec ic dc sc s t
      else min (levRec ic dc sc (a :: s) t + ic)
        (min (levRec ic dc sc s (b :: t) + dc) (levRec ic dc sc s t + sc)) := by
  rw [levRec]

theorem levRec_nil_right (ic dc sc : ℕ) (s : List α) :
    levRec ic dc sc s [] = s.length * dc := by
  cases s with
  | nil => simp [levRec]
  | cons a s => simp [levRec_cons_nil]

/-! Basic constructions for the `ECost` relation. -/

omit [DecidableEq α] in
theorem ecost_nil_left (ic dc sc : ℕ) (t : List α) : ECost ic dc sc [] t (t.length * ic) := by
  induction t with
  | nil => simpa using ECost.nil
  | cons b t ih =>
    have h : ECost ic dc sc [] (b :: t) (t.length * ic + ic) := ECost.ins b ih
    simpa [Nat.succ_mul] using h

omit [DecidableEq α] in
theorem ecost_nil_right (ic dc sc : ℕ) (s : List α) : ECost ic dc sc s [] (s.length * dc) := by
  induction s with
  | nil => simpa using ECost.nil
  | cons a s ih =>
    have h : ECost ic dc sc (a :: s) [] (s.length * dc + dc) := ECost.del a ih
    simpa [Nat.succ_mul] using h

omit [DecidableEq α] in
theorem ecost_append {ic dc sc : ℕ} {s1 t1 : List α} {c1 : ℕ}
    (h1 : ECost ic dc sc s1 t1 c1) {s2 t2 : List α} {c2 : ℕ}
    (h2 : ECost ic dc sc s2 t2 c2) :
    ECost ic dc sc (s1 ++ s2) (t1 ++ t2) (c1 + c2) := by
  induction h1 with
  | nil => simpa using h2
  | mtch a h ih => exact ECost.mtch a ih
  | subst a b h ih =>
    rename_i c
    have heq : c + sc + c2 = c + c2 + sc := by omega
    rw [heq]
    exact ECost.subst a b ih
  | del a h ih =>
    rename_i c
    have heq : c + dc + c2 = c + c2 + dc := by omega
    rw [heq]
    exact ECost.del a ih
  | ins b h ih =>
    rename_i c
    have heq : c + ic + c2 = c + c2 + ic := by omega
    rw [heq]
    exact ECost.ins b ih

omit [DecidableEq α] in
theorem ecost_reverse {ic dc sc : ℕ} {s t : List α} {c : ℕ} (h : ECost ic dc sc s t c) :
    ECost ic dc sc s.reverse t.reverse c := by
  induction h with
  | nil => exact ECost.nil
  | mtch a h ih =>
    have h1 : ECost ic dc sc [a] [a] 0 := ECost.mtch a ECost.nil
    simpa using ecost_append ih h1
  | subst a b h ih =>
    have h1 : ECost ic dc sc [a] [b] (0 + sc) := ECost.subst a b ECost.nil
    simpa using ecost_append ih h1
  | del a h ih =>
    have h1 : ECost ic dc sc [a] [] (0 + dc) := ECost.del a ECost.nil
    have h2 := ecost_append ih h1
    simpa using h2
  | ins b h ih =>
    have h1 : ECost ic dc sc [] [b] (0 + ic) := ECost.ins b ECost.nil
    have h2 := ecost_append ih h1
    simpa using h2

omit [DecidableEq α] in
theorem ecost_reverse_iff {ic dc sc : ℕ} {s t : List α} {c : ℕ} :
    ECost ic dc sc s.reverse t.reverse c ↔ ECost ic dc sc s t c := by
  constructor
  · intro h
    simpa using ecost_reverse h
  · exact ecost_reverse

omit [DecidableEq α] in
theorem ecost_swap {ic dc sc : ℕ} {s t : List α} {c : ℕ} (h : ECost ic dc sc s t c) :
    ECost dc ic sc t s c := by
  induction h with
  | nil => exact ECost.nil
  | mtch a h ih => exact ECost.mtch a ih
  | subst a b h ih => exact ECost.subst b a ih
  | del a h ih => exact ECost.ins a ih
  | ins b h ih => exact ECost.del b ih

/-! Dropping the leading target (resp. source) symbol of a transformation
costs at most one deletion (resp. insertion) more. -/

omit [DecidableEq α] in
theorem ecost_cons_target {ic dc sc : ℕ} {s tt : List α} {c : ℕ}
    (h : ECost ic dc sc s tt c) :
    ∀ {b : α} {t : List α}, tt = b :: t → ∃ c2, c2 ≤ c + dc ∧ ECost ic dc sc s t c2 := by
  induction h with
  | nil => intro b t heq; cases heq
  | mtch a h ih =>
    rename_i c
    intro b t heq
    injection heq with h1 h2
    subst h1
    subst h2
    exact ⟨c + dc, le_refl _, ECost.del a h⟩
  | subst a b0 h ih =>
    rename_i c
    intro b t heq
    injection heq with h1 h2
    subst h1
    subst h2
    exact ⟨c + dc, by omega, ECost.del a h⟩
  | del a h ih =>
    rename_i c
    intro b t heq
    obtain ⟨c2, hle, h2⟩ := ih heq
    exact ⟨c2 + dc, by omega, ECost.del a h2⟩
  | ins b0 h ih =>
    rename_i c
    intro b t heq
    injection heq with h1 h2
    subst h1
    subst h2
    exact ⟨c, by omega, h⟩

omit [DecidableEq α] in
theorem ecost_cons_source {ic dc sc : ℕ} {ss t : List α} {c : ℕ}
    (h : ECost ic dc sc ss t c) :
    ∀ {a : α} {s : List α}, ss = a :: s → ∃ c2, c2 ≤ c + ic ∧ ECost ic dc sc s t c2 := by
  induction h with
  | nil => intro a s heq; cases heq
  | mtch a0 h ih =>
    rename_i c
    intro a s heq
    injection heq with h1 h2
    subst h1
    subst h2
    exact ⟨c + ic, le_refl _, ECost.ins a0 h⟩
  | subst a0 b h ih =>
    rename_i c
    intro a s heq
    injection heq with h1 h2
    subst h1
    subst h2
    exact ⟨c + ic, by omega, ECost.ins b h⟩
  | del a0 h ih =>
    rename_i c
    intro a s heq
    injection heq with h1 h2
    subst h1
    subst h2
    exact ⟨c, by omega, h⟩
  | ins b h ih =>
    rename_i c
    intro a s heq
    obtain ⟨c2, hle, h2⟩ := ih heq
    exact ⟨c2 + ic, by omega, ECost.ins b h2⟩

/-- Lower bound: no transformation of `s` into `t` costs less than the value
of the forced-match recurrence. -/
theorem ecost_ge {ic dc sc : ℕ} :
    ∀ (n : ℕ) (s t : List α) (c : ℕ), s.length + t.length ≤ n →
      ECost ic dc sc s t c → levRec ic dc sc s t ≤ c := by
  intro n
  induction n with
  | zero =>
    intro s t c hlen h
    have hs : s = [] := List.length_eq_zero.mp (by omega)
    have ht : t = [] := List.length_eq_zero.mp (by omega)
    subst hs
    subst ht
    cases h
    simp [levRec_nil_left]
  | succ n ih =>
    intro s t c hlen h
    cases h with
    | nil => simp [levRec_nil_left]
    | mtch a h2 =>
      rw [levRec_cons_cons, if_pos rfl]
      exact ih _ _ _ (by simp at hlen ⊢; omega) h2
    | @subst a b s0 t0 c0 h2 =>
      rw [levRec_cons_cons]
      by_cases hab : a = b
      · rw [if_pos hab]
        have h3 := ih s0 t0 c0 (by simp at hlen ⊢; omega) h2
        omega
      · rw [if_neg hab]
        have h3 := ih s0 t0 c0 (by simp at hlen ⊢; omega) h2
        omega
    | @del a s0 t c0 h2 =>
      cases t with
      | nil =>
        rw [levRec_cons_nil]
        have h3 := ih s0 [] c0 (by simp at hlen ⊢; omega) h2
        rw [levRec_nil_right] at h3
        have h4 : (s0.length + 1) * dc = s0.length * dc + dc := by ring
        omega
      | cons b t0 =>
        rw [levRec_cons_cons]
        by_cases hab : a = b
        · rw [if_pos hab]
          obtain ⟨c2, hle, h3⟩ := ecost_cons_target h2 rfl
          have h4 := ih s0 t0 c2 (by simp at hlen ⊢; omega) h3
          omega
        · rw [if_neg hab]
          have h4 := ih s0 (b :: t0) c0 (by simp at hlen ⊢; omega) h2
          omega
    | @ins b s t0 c0 h2 =>
      cases s with
      | nil =>
        rw [levRec_nil_left]
        have h3 := ih [] t0 c0 (by simp at hlen ⊢; omega) h2
        rw [levRec_nil_left] at h3
        have h4 : (t0.length + 1) * ic = t0.length * ic + ic := by ring
        simp only [List.length_cons]
        omega
      | cons a s0 =>
        rw [levRec_cons_cons]
        by_cases hab : a = b
        · rw [if_pos hab]
          obtain ⟨c2, hle, h3⟩ := ecost_cons_source h2 rfl
          have h4 := ih s0 t0 c2 (by simp at hlen ⊢; omega) h3
          omega
        · rw [if_neg hab]
          have h4 := ih (a :: s0) t0 c0 (by simp at hlen ⊢; omega) h2
          omega

/-- Upper bound: the value of the forced-match recurrence is achieved by an
actual transformation. -/
theorem ecost_levRec (ic dc sc : ℕ) :
    ∀ (n : ℕ) (s t : List α), s.length + t.length ≤ n →
      ECost ic dc sc s t (levRec ic dc sc s t) := by
  intro n
  induction n with
  | zero =>
    intro s t hlen
    have hs : s = [] := List.length_eq_zero.mp (by omega)
    have ht : t = [] := List.length_eq_zero.mp (by omega)
    subst hs
    subst ht
    have h0 : ECost ic dc sc ([] : List α) [] 0 := ECost.nil
    simpa [levRec_nil_left] using h0
  | succ n ih =>
    intro s t hlen
    cases s with
    | nil =>
      rw [levRec_nil_left]
      exact ecost_nil_left ic dc sc t
    | cons a s0 =>
      cases t with
      | nil =>
        rw [levRec_cons_nil]
        simpa [List.length_cons] using ecost_nil_right ic dc sc (a :: s0)
      | cons b t0 =>
        rw [levRec_cons_cons]
        by_cases hab : a = b
        · rw [if_pos hab]
          subst hab
          exact ECost.mtch a (ih s0 t0 (by simp at hlen ⊢; omega))
        · rw [if_neg hab]
          have h1 := ih (a :: s0) t0 (by simp at hlen ⊢; omega)
          have h2 := ih s0 (b :: t0) (by simp at hlen ⊢; omega)
          have h3 := ih s0 t0 (by simp at hlen ⊢; omega)
          have hmin :
              min (levRec ic dc sc (a :: s0) t0 + ic)
                  (min (levRec ic dc sc s0 (b :: t0) + dc) (levRec ic dc sc s0 t0 + sc)) =
                levRec ic dc sc (a :: s0) t0 + ic ∨
              min (levRec ic dc sc (a :: s0) t0 + ic)
                  (min (levRec ic dc sc s0 (b :: t0) + dc) (levRec ic dc sc s0 t0 + sc)) =
                levRec ic dc sc s0 (b :: t0) + dc ∨
              min (levRec ic dc sc (a :: s0) t0 + ic)
                  (min (levRec ic dc sc s0 (b :: t0) + dc) (levRec ic dc sc s0 t0 + sc)) =
                levRec ic dc sc s0 t0 + sc := by omega
          rcases hmin with h | h | h
          · rw [h]
            exact ECost.ins b h1
          · rw [h]
            exact ECost.del a h2
          · rw [h]
            exact ECost.subst a b h3

/-- The forced-match recurrence computes exactly the minimal transformation
cost. -/
theorem levRec_isLeast (ic dc sc : ℕ) (s t : List α) :
    IsLeast {c | ECost ic dc sc s t c} (levRec ic dc sc s t) :=
  ⟨ecost_levRec ic dc sc (s.length + t.length) s t (le_refl _),
    fun c hc => ecost_ge (s.length + t.length) s t c (le_refl _) hc⟩

/-! Relating the matrix cells to the front-recursion `levRec`, and through it
to the specification relation `ECost`. -/

omit [DecidableEq α] in
theorem rev_take_succ {s : List α} {i : ℕ} {a : α} (h : s.get? i = some a) :
    (s.take (i + 1)).reverse = a :: (s.take i).reverse := by
  have h2 : s[i]? = some a := by
    rw [← List.get?_eq_getElem?]
    exact h
  simp [List.take_succ, h2]

theorem matD_eq_levRec (s t : List α) (ic dc sc : ℕ) :
    ∀ (n i j : ℕ), i + j ≤ n → i ≤ s.length → j ≤ t.length →
      matD s t ic dc sc i j = levRec ic dc sc (s.take i).reverse (t.take j).reverse := by
  intro n
  induction n with
  | zero =>
    intro i j hn hi hj
    have h1 : i = 0 := by omega
    have h2 : j = 0 := by omega
    subst h1
    subst h2
    simp [matD_zero, levRec_nil_left]
  | succ n ih =>
    intro i j hn hi hj
    cases i with
    | zero =>
      rw [matD_zero]
      simp only [List.take_zero, List.reverse_nil]
      rw [levRec_nil_left]
      simp [List.length_take, min_eq_left hj]
    | succ i0 =>
      cases j with
      | zero =>
        simp only [List.take_zero, List.reverse_nil]
        rw [matD_succ_zero, levRec_nil_right]
        simp [List.length_take, min_eq_left hi]
      | succ j0 =>
        have hia : i0 < s.length := by omega
        have hja : j0 < t.length := by omega
        obtain ⟨a, ha⟩ : ∃ a, s.get? i0 = some a := ⟨_, List.get?_eq_get hia⟩
        obtain ⟨b, hb⟩ : ∃ b, t.get? j0 = some b := ⟨_, List.get?_eq_get hja⟩
        have e1 := ih (i0 + 1) j0 (by omega) (by omega) (by omega)
        have e2 := ih i0 (j0 + 1) (by omega) (by omega) (by omega)
        have e3 := ih i0 j0 (by omega) (by omega) (by omega)
        rw [matD_succ_succ, rev_take_succ ha, rev_take_succ hb, levRec_cons_cons, ha, hb]
        rw [rev_take_succ ha] at e1
        rw [rev_take_succ hb] at e2
        by_cases hab : a = b
        · rw [if_pos (by rw [hab]), if_pos hab]
          exact e3
        · rw [if_neg (by simp [hab]), if_neg hab, e1, e2, e3]

/-- The value `distance()` returns is the least cost of any transformation of
the source into the target. -/
theorem dist_isLeast (s t : List α) (ic dc sc : ℕ) :
    IsLeast {c | ECost ic dc sc s t c} (distance s t ic dc sc) := by
  have h := matD_eq_levRec s t ic dc sc (s.length + t.length) s.length t.length
    (le_refl _) (le_refl _) (le_refl _)
  rw [List.take_length, List.take_length] at h
  have h2 := levRec_isLeast ic dc sc s.reverse t.reverse
  have hset : {c | ECost ic dc sc s.reverse t.reverse c} = {c | ECost ic dc sc s t c} := by
    ext c
    simp only [Set.mem_setOf_eq]
    exact ecost_reverse_iff
  rw [hset] at h2
  unfold distance
  rw [h]
  exact h2

omit [DecidableEq α] in
/-- Transformations compose: a transformation of `s` into `t` followed by one
of `t` into `u` yields a transformation of `s` into `u` of at most the summed
cost. -/
theorem ecost_trans {ic dc sc : ℕ} :
    ∀ (n : ℕ) (s t u : List α) (c1 c2 : ℕ), s.length + t.length + u.length ≤ n →
      ECost ic dc sc s t c1 → ECost ic dc sc t u c2 →
      ∃ c3, c3 ≤ c1 + c2 ∧ ECost ic dc sc s u c3 := by
  intro n
  induction n with
  | zero =>
    intro s t u c1 c2 hlen d1 d2
    have hs : s = [] := List.length_eq_zero.mp (by omega)
    have hu : u = [] := List.length_eq_zero.mp (by omega)
    subst hs
    subst hu
    exact ⟨c2, by omega, by
      have ht : t = [] := List.length_eq_zero.mp (by omega)
      subst ht
      exact d2⟩
  | succ n ih =>
    intro s t u c1 c2 hlen d1 d2
    cases d1 with
    | nil => exact ⟨c2, by omega, d2⟩
    | mtch a d1h =>
      cases d2 with
      | mtch a2 d2h =>
        obtain ⟨c3, hle, d3⟩ := ih _ _ _ _ _ (by simp at hlen ⊢; omega) d1h d2h
        exact ⟨c3, by omega, ECost.mtch a d3⟩
      | subst a2 b2 d2h =>
        obtain ⟨c3, hle, d3⟩ := ih _ _ _ _ _ (by simp at hlen ⊢; omega) d1h d2h
        exact ⟨c3 + sc, by omega, ECost.subst a b2 d3⟩
      | del a2 d2h =>
        obtain ⟨c3, hle, d3⟩ := ih _ _ _ _ _ (by simp at hlen ⊢; omega) d1h d2h
        exact ⟨c3 + dc, by omega, ECost.del a d3⟩
      | ins b2 d2h =>
        obtain ⟨c3, hle, d3⟩ :=
          ih _ _ _ _ _ (by simp at hlen ⊢; omega) (ECost.mtch a d1h) d2h
        exact ⟨c3 + ic, by omega, ECost.ins b2 d3⟩
    | subst a b d1h =>
      cases d2 with
      | mtch a2 d2h =>
        obtain ⟨c3, hle, d3⟩ := ih _ _ _ _ _ (by simp at hlen ⊢; omega) d1h d2h
        exact ⟨c3 + sc, by omega, ECost.subst a b d3⟩
      | subst a2 b2 d2h =>
        obtain ⟨c3, hle, d3⟩ := ih _ _ _ _ _ (by simp at hlen ⊢; omega) d1h d2h
        exact ⟨c3 + sc, by omega, ECost.subst a b2 d3⟩
      | del a2 d2h =>
        obtain ⟨c3, hle, d3⟩ := ih _ _ _ _ _ (by simp at hlen ⊢; omega) d1h d2h
        exact ⟨c3 + dc, by omega, ECost.del a d3⟩
      | ins b2 d2h =>
        obtain ⟨c3, hle, d3⟩ :=
          ih _ _ _ _ _ (by simp at hlen ⊢; omega) (ECost.subst a b d1h) d2h
        exact ⟨c3 + ic, by omega, ECost.ins b2 d3⟩
    | del a d1h =>
      obtain ⟨c3, hle, d3⟩ := ih _ _ _ _ _ (by simp at hlen ⊢; omega) d1h d2
      exact ⟨c3 + dc, by omega, ECost.del a d3⟩
    | ins b d1h =>
      cases d2 with
      | mtch a2 d2h =>
        obtain ⟨c3, hle, d3⟩ := ih _ _ _ _ _ (by simp at hlen ⊢; omega) d1h d2h
        exact ⟨c3 + ic, by omega, ECost.ins b d3⟩
      | subst a2 b2 d2h =>
        obtain ⟨c3, hle, d3⟩ := ih _ _ _ _ _ (by simp at hlen ⊢; omega) d1h d2h
        exact ⟨c3 + ic, by omega, ECost.ins b2 d3⟩
      | del a2 d2h =>
        obtain ⟨c3, hle, d3⟩ := ih _ _ _ _ _ (by simp at hlen ⊢; omega) d1h d2h
        exact ⟨c3, by omega, d3⟩
      | ins b2 d2h =>
        obtain ⟨c3, hle, d3⟩ :=
          ih _ _ _ _ _ (by simp at hlen ⊢; omega) (ECost.ins b d1h) d2h
        exact ⟨c3 + ic, by omega, ECost.ins b2 d3⟩

theorem matD_i_zero (s t : List α) (ic dc sc i : ℕ) : matD s t ic dc sc i 0 = i * dc := by
  cases i with
  | zero => simp [matD_zero]
  | succ i0 => rfl

omit [DecidableEq α] in
theorem backtraceAux_zero (ic dc sc : ℕ) (D : ℕ → ℕ → ℕ) (i j : ℕ) :
    backtraceAux ic dc sc D 0 i j = if i = 0 ∧ j = 0 then some [] else none := rfl

omit [DecidableEq α] in
theorem backtraceAux_succ (ic dc sc : ℕ) (D : ℕ → ℕ → ℕ) (fuel i j : ℕ) :
    backtraceAux ic dc sc D (fuel + 1) i j =
      if i = 0 ∧ j = 0 then some []
      else
        match backtraceStep ic dc sc D i j with
        | some (e, i2, j2) => (backtraceAux ic dc sc D fuel i2 j2).map (fun es => e :: es)
        | none => backtraceAux ic dc sc D fuel i j := rfl

omit [DecidableEq α] in
/-- If at some state other than `(0, 0)` all four guards are false, the loop
body changes nothing and the backtrace never terminates. -/
theorem stuck_loops (ic dc sc : ℕ) (D : ℕ → ℕ → ℕ) (i j : ℕ) (h0 : ¬(i = 0 ∧ j = 0))
    (hstep : backtraceStep ic dc sc D i j = none) : loopsForever ic dc sc D i j := by
  intro fuel
  induction fuel with
  | zero => rw [backtraceAux_zero, if_neg h0]
  | succ fuel ihf =>
    rw [backtraceAux_succ, if_neg h0, hstep]
    exact ihf

omit [DecidableEq α] in
/-- Replays of well-formed pieces concatenate. -/
theorem replayT_append :
    ∀ (ops1 : List EType) (s1 t1 r1 : List α), replayT ops1 s1 t1 = some r1 →
      ∀ (ops2 : List EType) (s2 t2 r2 : List α), replayT ops2 s2 t2 = some r2 →
        replayT (ops1 ++ ops2) (s1 ++ s2) (t1 ++ t2) = some (r1 ++ r2) := by
  intro ops1
  induction ops1 with
  | nil =>
    intro s1 t1 r1 h1 ops2 s2 t2 r2 h2
    cases s1 with
    | nil =>
      cases t1 with
      | nil =>
        simp only [replayT, Option.some_inj] at h1
        subst h1
        simpa using h2
      | cons b t1 => simp [replayT] at h1
    | cons a s1 =>
      cases t1 with
      | nil => simp [replayT] at h1
      | cons b t1 => simp [replayT] at h1
  | cons op ops ih =>
    intro s1 t1 r1 h1 ops2 s2 t2 r2 h2
    cases op with
    | Match =>
      cases s1 with
      | nil =>
        cases t1 with
        | nil => simp [replayT] at h1
        | cons b t1 => simp [replayT] at h1
      | cons a s1 =>
        cases t1 with
        | nil => simp [replayT] at h1
        | cons b t1 =>
          have h3 : (replayT ops s1 t1).map (fun r => b :: r) = some r1 := h1
          cases hx : replayT ops s1 t1 with
          | none =>
            rw [hx] at h3
            simp at h3
          | some r0 =>
            rw [hx] at h3
            simp at h3
            subst h3
            show (replayT (ops ++ ops2) (s1 ++ s2) (t1 ++ t2)).map (fun r => b :: r) =
              some ((b :: r0) ++ r2)
            rw [ih _ _ _ hx _ _ _ _ h2]
            rfl
    | Substitution =>
      cases s1 with
      | nil =>
        cases t1 with
        | nil => simp [replayT] at h1
        | cons b t1 => simp [replayT] at h1
      | cons a s1 =>
        cases t1 with
        | nil => simp [replayT] at h1
        | cons b t1 =>
          have h3 : (replayT ops s1 t1).map (fun r => b :: r) = some r1 := h1
          cases hx : replayT ops s1 t1 with
          | none =>
            rw [hx] at h3
            simp at h3
          | some r0 =>
            rw [hx] at h3
            simp at h3
            subst h3
            show (replayT (ops ++ ops2) (s1 ++ s2) (t1 ++ t2)).map (fun r => b :: r) =
              some ((b :: r0) ++ r2)
            rw [ih _ _ _ hx _ _ _ _ h2]
            rfl
    | Deletion =>
      cases s1 with
      | nil => simp [replayT] at h1
      | cons a s1 =>
        have h3 : replayT ops s1 t1 = some r1 := h1
        show replayT (ops ++ ops2) (s1 ++ s2) (t1 ++ t2) = some (r1 ++ r2)
        exact ih _ _ _ h3 _ _ _ _ h2
    | Insertion =>
      cases t1 with
      | nil =>
        cases s1 with
        | nil => simp [replayT] at h1
        | cons a s1 => simp [replayT] at h1
      | cons b t1 =>
        have h3 : (replayT ops s1 t1).map (fun r => b :: r) = some r1 := h1
        cases hx : replayT ops s1 t1 with
        | none =>
          rw [hx] at h3
          simp at h3
        | some r0 =>
          rw [hx] at h3
          simp at h3
          subst h3
          show (replayT (ops ++ ops2) (s1 ++ s2) (t1 ++ t2)).map (fun r => b :: r) =
            some ((b :: r0) ++ r2)
          rw [ih _ _ _ hx _ _ _ _ h2]
          rfl

/-- On the matrix built by `__edit_distance`, at every in-range state other
than `(0, 0)` one of the four guards holds; the selected step strictly
decreases `i + j`, moves down-left, accounts for exactly the cost drop of the
matrix, emits an in-range record, and corresponds to a one-operation replay
piece. -/
theorem step_spec (s t : List α) (ic dc sc : ℕ) (i j : ℕ) (hi : i ≤ s.length)
    (hj : j ≤ t.length) (h0 : ¬(i = 0 ∧ j = 0)) :
    ∃ e i2 j2 ms mt,
      backtraceStep ic dc sc (matD s t ic dc sc) i j = some (e, i2, j2) ∧
      i2 + j2 < i + j ∧ i2 ≤ i ∧ j2 ≤ j ∧
      matD s t ic dc sc i j = opCost ic dc sc e + matD s t ic dc sc i2 j2 ∧
      edBound s t e ∧
      s.take i = s.take i2 ++ ms ∧ t.take j = t.take j2 ++ mt ∧
      replayT [e.type] ms mt = some mt := by
  by_cases g1 : (i ≠ 0 ∧ j ≠ 0) ∧ matD s t ic dc sc i j = matD s t ic dc sc (i - 1) (j - 1)
  · obtain ⟨⟨hi0, hj0⟩, hcost⟩ := g1
    obtain ⟨a, ha⟩ : ∃ a, s[i - 1]? = some a := ⟨_, List.getElem?_eq_getElem (by omega)⟩
    obtain ⟨b, hb⟩ : ∃ b, t[j - 1]? = some b := ⟨_, List.getElem?_eq_getElem (by omega)⟩
    refine ⟨⟨EType.Match, i - 1, j - 1⟩, i - 1, j - 1, [a], [b], ?_, by omega, by omega,
      by omega, ?_, ?_, ?_, ?_, rfl⟩
    · unfold backtraceStep
      rw [if_pos ⟨⟨hi0, hj0⟩, hcost⟩]
    · simpa [opCost] using hcost
    · simp only [edBound]
      exact ⟨by omega, by omega⟩
    · have hi1 : i - 1 + 1 = i := by omega
      rw [← hi1, List.take_succ, ha]
      rfl
    · have hj1 : j - 1 + 1 = j := by omega
      rw [← hj1, List.take_succ, hb]
      rfl
  · by_cases g2 : (i ≠ 0 ∧ j ≠ 0) ∧ matD s t ic dc sc i j = matD s t ic dc sc (i - 1) (j - 1) + sc
    · obtain ⟨⟨hi0, hj0⟩, hcost⟩ := g2
      obtain ⟨a, ha⟩ : ∃ a, s[i - 1]? = some a := ⟨_, List.getElem?_eq_getElem (by omega)⟩
      obtain ⟨b, hb⟩ : ∃ b, t[j - 1]? = some b := ⟨_, List.getElem?_eq_getElem (by omega)⟩
      refine ⟨⟨EType.Substitution, i - 1, j - 1⟩, i - 1, j - 1, [a], [b], ?_, by omega,
        by omega, by omega, ?_, ?_, ?_, ?_, rfl⟩
      · unfold backtraceStep
        rw [if_neg g1, if_pos ⟨⟨hi0, hj0⟩, hcost⟩]
      · simp only [opCost]
        omega
      · simp only [edBound]
        exact ⟨by omega, by omega⟩
      · have hi1 : i - 1 + 1 = i := by omega
        rw [← hi1, List.take_succ, ha]
        rfl
      · have hj1 : j - 1 + 1 = j := by omega
        rw [← hj1, List.take_succ, hb]
        rfl
    · by_cases g3 : i ≠ 0 ∧ matD s t ic dc sc i j = matD s t ic dc sc (i - 1) j + dc
      · obtain ⟨hi0, hcost⟩ := g3
        obtain ⟨a, ha⟩ : ∃ a, s[i - 1]? = some a := ⟨_, List.getElem?_eq_getElem (by omega)⟩
        refine ⟨⟨EType.Deletion, i - 1, j⟩, i - 1, j, [a], [], ?_, by omega, by omega,
          by omega, ?_, ?_, ?_, by simp, rfl⟩
        · unfold backtraceStep
          rw [if_neg g1, if_neg g2, if_pos ⟨hi0, hcost⟩]
        · simp only [opCost]
          omega
        · simp only [edBound]
          exact ⟨by omega, hj⟩
        · have hi1 : i - 1 + 1 = i := by omega
          rw [← hi1, List.take_succ, ha]
          rfl
      · by_cases g4 : j ≠ 0 ∧ matD s t ic dc sc i j = matD s t ic dc sc i (j - 1) + ic
        · obtain ⟨hj0, hcost⟩ := g4
          obtain ⟨b, hb⟩ : ∃ b, t[j - 1]? = some b := ⟨_, List.getElem?_eq_getElem (by omega)⟩
          refine ⟨⟨EType.Insertion, i, j - 1⟩, i, j - 1, [], [b], ?_, by omega, by omega,
            by omega, ?_, ?_, by simp, ?_, rfl⟩
          · unfold backtraceStep
            rw [if_neg g1, if_neg g2, if_neg g3, if_pos ⟨hj0, hcost⟩]
          · simp only [opCost]
            omega
          · simp only [edBound]
            exact ⟨hi, by omega⟩
          · have hj1 : j - 1 + 1 = j := by omega
            rw [← hj1, List.take_succ, hb]
            rfl
        · exfalso
          cases i with
          | zero =>
            have hj0 : j ≠ 0 := fun h => h0 ⟨rfl, h⟩
            apply g4
            refine ⟨hj0, ?_⟩
            obtain ⟨j0, rfl⟩ : ∃ j0, j = j0 + 1 := ⟨j - 1, by omega⟩
            rw [matD_zero, matD_zero]
            simp [Nat.succ_mul]
          | succ i0 =>
            cases j with
            | zero =>
              apply g3
              refine ⟨by omega, ?_⟩
              rw [matD_i_zero, matD_i_zero]
              simp [Nat.succ_mul]
            | succ j0 =>
              have hrec := matD_succ_succ s t ic dc sc i0 j0
              by_cases hsym : s.get? i0 = t.get? j0
              · rw [if_pos hsym] at hrec
                exact g1 ⟨⟨by omega, by omega⟩, by simpa using hrec⟩
              · rw [if_neg hsym] at hrec
                have h3 :
                    matD s t ic dc sc (i0 + 1) (j0 + 1) = matD s t ic dc sc (i0 + 1) j0 + ic ∨
                    matD s t ic dc sc (i0 + 1) (j0 + 1) = matD s t ic dc sc i0 (j0 + 1) + dc ∨
                    matD s t ic dc sc (i0 + 1) (j0 + 1) = matD s t ic dc sc i0 j0 + sc := by
                  omega
                rcases h3 with h | h | h
                · exact g4 ⟨by omega, by simpa using h⟩
                · exact g3 ⟨by omega, by simpa using h⟩
                · exact g2 ⟨⟨by omega, by omega⟩, by simpa using h⟩

/-- Master property of the backtrace walk on the genuine matrix: with fuel at
least `i + j` it terminates, its operations cost exactly `D[i][j]` in total,
every emitted record is in range, and the (forward-order) operation list
replays the prefix `s.take i` into `t.take j` under `replayT`. -/
theorem bt_master (s t : List α) (ic dc sc : ℕ) :
    ∀ (fuel i j : ℕ), i + j ≤ fuel → i ≤ s.length → j ≤ t.length →
      ∃ es, backtraceAux ic dc sc (matD s t ic dc sc) fuel i j = some es ∧
        (es.map (opCost ic dc sc)).sum = matD s t ic dc sc i j ∧
        (∀ e ∈ es, edBound s t e) ∧
        replayT (es.reverse.map Edit.type) (s.take i) (t.take j) = some (t.take j) := by
  intro fuel
  induction fuel with
  | zero =>
    intro i j hn hi hj
    have h1 : i = 0 := by omega
    have h2 : j = 0 := by omega
    subst h1
    subst h2
    refine ⟨[], by simp [backtraceAux_zero], by simp [matD_zero], by simp, ?_⟩
    simp only [List.reverse_nil, List.map_nil, List.take_zero]
    rfl
  | succ fuel ih =>
    intro i j hn hi hj
    by_cases h0 : i = 0 ∧ j = 0
    · obtain ⟨rfl, rfl⟩ := h0
      refine ⟨[], by simp [backtraceAux_succ], by simp [matD_zero], by simp, ?_⟩
      simp only [List.reverse_nil, List.map_nil, List.take_zero]
      rfl
    · obtain ⟨e, i2, j2, ms, mt, hstep, hdec, hi2, hj2, hcost, hbound, hss, hst, hrep1⟩ :=
        step_spec s t ic dc sc i j hi hj h0
      obtain ⟨es, haux, hsum, hbounds, hrep⟩ := ih i2 j2 (by omega) (by omega) (by omega)
      refine ⟨e :: es, ?_, ?_, ?_, ?_⟩
      · rw [backtraceAux_succ, if_neg h0, hstep]
        show (backtraceAux ic dc sc (matD s t ic dc sc) fuel i2 j2).map (fun l => e :: l) =
          some (e :: es)
        rw [haux]
        rfl
      · simp only [List.map_cons, List.sum_cons, hsum]
        omega
      · intro e2 he2
        rcases List.mem_cons.mp he2 with h | h
        · subst h
          exact hbound
        · exact hbounds e2 h
      · rw [List.reverse_cons, List.map_append, hss, hst]
        have h4 := replayT_append _ _ _ _ hrep _ _ _ _ hrep1
        simpa using h4

/-- Minimality of a single cell for the corresponding prefixes. -/
theorem matD_isLeast (s t : List α) (ic dc sc : ℕ) (i j : ℕ) (hi : i ≤ s.length)
    (hj : j ≤ t.length) :
    IsLeast {c | ECost ic dc sc (s.take i) (t.take j) c} (matD s t ic dc sc i j) := by
  have h := matD_eq_levRec s t ic dc sc (i + j) i j (le_refl _) hi hj
  have h2 := levRec_isLeast ic dc sc (s.take i).reverse (t.take j).reverse
  have hset : {c | ECost ic dc sc (s.take i).reverse (t.take j).reverse c} =
      {c | ECost ic dc sc (s.take i) (t.take j) c} := by
    ext c
    simp only [Set.mem_setOf_eq]
    exact ecost_reverse_iff
  rw [hset] at h2
  rw [h]
  exact h2

/-- Claim C1: every cell `D[i][j]` of the constructed matrix is the least cost
of transforming the first `i` symbols of the source into the first `j` symbols
of the target using insertions, deletions and substitutions at the given
costs, with free matches of equal symbols; and `distance()` returns
`D[m][n]`, the least cost of transforming the whole source into the whole
target. -/
theorem C1_matrix_minimal (s t : List α) (ic dc sc : ℕ) :
    (∀ i j, i ≤ s.length → j ≤ t.length →
      IsLeast {c | ECost ic dc sc (s.take i) (t.take j) c} (matD s t ic dc sc i j)) ∧
    distance s t ic dc sc = matD s t ic dc sc s.length t.length ∧
    IsLeast {c | ECost ic dc sc s t c} (distance s t ic dc sc) :=
  ⟨fun i j hi hj => matD_isLeast s t ic dc sc i j hi hj, rfl, dist_isLeast s t ic dc sc⟩

/-- Witness for C1 at a concrete instance. -/
theorem C1_matrix_minimal_w :
    1 ≤ ([0, 1] : List ℕ).length ∧ 2 ≤ ([0, 2] : List ℕ).length ∧
      IsLeast {c | ECost 1 1 1 (([0, 1] : List ℕ).take 1) (([0, 2] : List ℕ).take 2) c}
        (matD [0, 1] [0, 2] 1 1 1 1 2) :=
  ⟨by decide, by decide, (C1_matrix_minimal [0, 1] [0, 2] 1 1 1).1 1 2 (by decide) (by decide)⟩

/-- Claim C2 (code bug): at source `[0,1]`, target `[0,1,2]` and the default
costs `(1,1,1)`, `edit_ops()` returns `[Insertion(0,0), Match(0,1),
Match(1,2)]`, whose replay against the source (a Match keeping the consumed
source symbol) produces `[0,0,1]`, not the target `[0,1,2]`: the two Match
records pair unequal symbols because the backtrace tests cost equality, never
symbol equality. -/
theorem C2_replay_fails :
    editOps [0, 1] [0, 1, 2] 1 1 1 =
      some [⟨EType.Insertion, 0, 0⟩, ⟨EType.Match, 0, 1⟩, ⟨EType.Match, 1, 2⟩] ∧
    (editOps [0, 1] [0, 1, 2] 1 1 1).map
        (fun l => replayS (l.map Edit.type) [0, 1] [0, 1, 2]) =
      some (some [0, 0, 1]) ∧
    ([0, 0, 1] : List ℕ) ≠ [0, 1, 2] := by
  refine ⟨by decide, by decide, by decide⟩

/-- Claim C3: the costs of the operations returned by `edit_ops()` (Match
free, the others per the cost model) sum to `distance()`. -/
theorem C3_cost_sum (s t : List α) (ic dc sc : ℕ) (l : List Edit)
    (h : editOps s t ic dc sc = some l) :
    (l.map (opCost ic dc sc)).sum = distance s t ic dc sc := by
  obtain ⟨es, haux, hsum, _, _⟩ := bt_master s t ic dc sc (s.length + t.length)
    s.length t.length (le_refl _) (le_refl _) (le_refl _)
  unfold editOps editsRaw at h
  rw [haux] at h
  simp at h
  subst h
  rw [List.map_reverse, List.sum_reverse, hsum]
  rfl

/-- Witness for C3 at a concrete instance. -/
theorem C3_cost_sum_w :
    editOps [0] [1] 1 1 1 = some [⟨EType.Substitution, 0, 0⟩] ∧
    (([⟨EType.Substitution, 0, 0⟩] : List Edit).map (opCost 1 1 1)).sum =
      distance [0] [1] 1 1 1 :=
  ⟨by decide, C3_cost_sum [0] [1] 1 1 1 [⟨EType.Substitution, 0, 0⟩] (by decide)⟩

/-- Claim C4: the backtrace guards are tested in the fixed order Match,
Substitution, Deletion, Insertion; the Match guard is cost equality with the
diagonal (the step function does not even receive the sequences, so no symbol
is re-checked), and the first guard that holds determines the emitted record
and the move, for any matrix `D`. -/
theorem C4_guard_order (ic dc sc : ℕ) (D : ℕ → ℕ → ℕ) (i j : ℕ) :
    (i ≠ 0 → j ≠ 0 → D i j = D (i - 1) (j - 1) →
      backtraceStep ic dc sc D i j = some (⟨EType.Match, i - 1, j - 1⟩, i - 1, j - 1)) ∧
    (i ≠ 0 → j ≠ 0 → D i j ≠ D (i - 1) (j - 1) → D i j = D (i - 1) (j - 1) + sc →
      backtraceStep ic dc sc D i j = some (⟨EType.Substitution, i - 1, j - 1⟩, i - 1, j - 1)) ∧
    (i ≠ 0 → ¬((i ≠ 0 ∧ j ≠ 0) ∧ D i j = D (i - 1) (j - 1)) →
      ¬((i ≠ 0 ∧ j ≠ 0) ∧ D i j = D (i - 1) (j - 1) + sc) → D i j = D (i - 1) j + dc →
      backtraceStep ic dc sc D i j = some (⟨EType.Deletion, i - 1, j⟩, i - 1, j)) ∧
    (j ≠ 0 → ¬((i ≠ 0 ∧ j ≠ 0) ∧ D i j = D (i - 1) (j - 1)) →
      ¬((i ≠ 0 ∧ j ≠ 0) ∧ D i j = D (i - 1) (j - 1) + sc) →
      ¬(i ≠ 0 ∧ D i j = D (i - 1) j + dc) → D i j = D i (j - 1) + ic →
      backtraceStep ic dc sc D i j = some (⟨EType.Insertion, i, j - 1⟩, i, j - 1)) := by
  refine ⟨?_, ?_, ?_, ?_⟩
  · intro hi0 hj0 hm
    unfold backtraceStep
    rw [if_pos ⟨⟨hi0, hj0⟩, hm⟩]
  · intro hi0 hj0 hnm hsub
    unfold backtraceStep
    rw [if_neg (fun hg => hnm hg.2), if_pos ⟨⟨hi0, hj0⟩, hsub⟩]
  · intro hi0 hng1 hng2 hdel
    unfold backtraceStep
    rw [if_neg hng1, if_neg hng2, if_pos ⟨hi0, hdel⟩]
  · intro hj0 hng1 hng2 hng3 hins
    unfold backtraceStep
    rw [if_neg hng1, if_neg hng2, if_neg hng3, if_pos ⟨hj0, hins⟩]

/-- Witness for C4: with `substitutionCost = 0`, at the cell `(1,1)` of the
matrix for source `[0]` and target `[1]` both the Match and the Substitution
guards hold while the two symbols differ, and Match is the operation
reported. -/
theorem C4_guard_order_w :
    matD [0] [1] 1 1 0 1 1 = matD [0] [1] 1 1 0 0 0 ∧
    matD [0] [1] 1 1 0 1 1 = matD [0] [1] 1 1 0 0 0 + 0 ∧
    ([0] : List ℕ).get? 0 ≠ ([1] : List ℕ).get? 0 ∧
    backtraceStep 1 1 0 (matD [0] [1] 1 1 0) 1 1 = some (⟨EType.Match, 0, 0⟩, 0, 0) :=
  ⟨by decide, by decide, by decide,
    (C4_guard_order 1 1 0 (matD [0] [1] 1 1 0) 1 1).1 (by decide) (by decide) (by decide)⟩

/-- Claim C5: on the matrix built by the construction, at every in-range state
other than `(0,0)` the step selected by the guards exists and strictly
decreases `i + j`, so the backtrace loop terminates: the whole constructor
computation is total. -/
theorem C5_terminates (s t : List α) (ic dc sc : ℕ) :
    (∀ i j, i ≤ s.length → j ≤ t.length → ¬(i = 0 ∧ j = 0) →
      ∃ e i2 j2, backtraceStep ic dc sc (matD s t ic dc sc) i j = some (e, i2, j2) ∧
        i2 + j2 < i + j) ∧
    ∃ es, editsRaw s t ic dc sc = some es := by
  constructor
  · intro i j hi hj h0
    obtain ⟨e, i2, j2, ms, mt, hstep, hdec, _⟩ := step_spec s t ic dc sc i j hi hj h0
    exact ⟨e, i2, j2, hstep, hdec⟩
  · obtain ⟨es, haux, _⟩ := bt_master s t ic dc sc (s.length + t.length)
      s.length t.length (le_refl _) (le_refl _) (le_refl _)
    exact ⟨es, haux⟩

/-- Witness for C5 at a concrete instance. -/
theorem C5_terminates_w :
    1 ≤ ([0] : List ℕ).length ∧ 1 ≤ ([1] : List ℕ).length ∧ ¬(1 = 0 ∧ 1 = 0) ∧
    (∃ e i2 j2, backtraceStep 1 1 1 (matD ([0] : List ℕ) [1] 1 1 1) 1 1 = some (e, i2, j2) ∧
      i2 + j2 < 1 + 1) ∧
    ∃ es, editsRaw ([0] : List ℕ) [1] 1 1 1 = some es :=
  ⟨by decide, by decide, by decide,
    (C5_terminates [0] [1] 1 1 1).1 1 1 (by decide) (by decide) (by decide),
    (C5_terminates [0] [1] 1 1 1).2⟩

/-- Counterexample to claim C6 as stated: on a tampered matrix all four guards
are false at `(1,1)`, and the backtracer does not fail with any error — the
loop body changes nothing and the walk never terminates (the code has no
`CorruptMatrixError`, and its `while` loop has no exit for this case). -/
theorem C6_cex : backtraceStep 1 1 1 Dbad 1 1 = none ∧ loopsForever 1 1 1 Dbad 1 1 :=
  ⟨by decide, stuck_loops 1 1 1 Dbad 1 1 (by decide) (by decide)⟩

/-- Claim C6 as amended: whenever all four guard conditions are false at a
state other than `(0,0)`, the backtrace loop re-executes without changing or
failing, i.e. it never terminates. -/
theorem C6_stuck_behaviour (ic dc sc : ℕ) (D : ℕ → ℕ → ℕ) (i j : ℕ)
    (h0 : ¬(i = 0 ∧ j = 0)) (hstep : backtraceStep ic dc sc D i j = none) :
    loopsForever ic dc sc D i j :=
  stuck_loops ic dc sc D i j h0 hstep

/-- Witness for the amended C6 at a concrete tampered matrix. -/
theorem C6_stuck_behaviour_w :
    ¬(1 = 0 ∧ 1 = 0) ∧ backtraceStep 1 1 1 Dbad 1 1 = none ∧
      backtraceAux 1 1 1 Dbad 5 1 1 = none :=
  ⟨by decide, by decide, C6_stuck_behaviour 1 1 1 Dbad 1 1 (by decide) (by decide) 5⟩

/-- Counterexample to claim C7 as stated: with insertion cost 2 and deletion
cost 3, cell `D[0][1]` is `1 × insertionCost = 2`, not
`1 × deletionCost = 3`, and cell `D[1][0]` is `1 × deletionCost = 3`, not
`1 × insertionCost = 2`: the claim swaps the two borders. -/
theorem C7_cex :
    matD ([] : List ℕ) [7] 2 3 1 0 1 ≠ 1 * 3 ∧ matD [7] ([] : List ℕ) 2 3 1 1 0 ≠ 1 * 2 := by
  refine ⟨by decide, by decide⟩

/-- Claim C7 as amended: row 0 of the matrix is the prefix sums of the
insertion cost (`D[0][j] = j × insertionCost` for `j ≤ n`) and column 0 is the
prefix sums of the deletion cost (`D[i][0] = i × deletionCost` for `i ≤ m`). -/
theorem C7_border (s t : List α) (ic dc sc : ℕ) :
    (∀ j, j ≤ t.length → matD s t ic dc sc 0 j = j * ic) ∧
    (∀ i, i ≤ s.length → matD s t ic dc sc i 0 = i * dc) :=
  ⟨fun j _ => matD_zero s t ic dc sc j, fun i _ => matD_i_zero s t ic dc sc i⟩

/-- Witness for the amended C7 at a concrete instance. -/
theorem C7_border_w :
    1 ≤ ([5] : List ℕ).length ∧ matD ([] : List ℕ) [5] 2 3 1 0 1 = 1 * 2 :=
  ⟨by decide, (C7_border ([] : List ℕ) [5] 2 3 1).1 1 (by decide)⟩

/-- Counterexample to claim C8 as stated: with insertion cost 5 and deletion
cost 7 the two distances between `[0]` and `[1]` are equal (both are the
substitution cost 1), yet the insertion cost differs from the deletion cost:
equality of the two distances does not force `insertionCost = deletionCost`. -/
theorem C8_cex :
    distance ([0] : List ℕ) [1] 5 7 1 = distance [1] [0] 5 7 1 ∧ (5 : ℕ) ≠ 7 := by
  refine ⟨by decide, by decide⟩

/-- Claim C8 as amended: symmetry is conditional — whenever the insertion and
deletion costs coincide, `distance(A, B) = distance(B, A)` for all sequences
(the implication of the claim holds in this direction, not the stated one). -/
theorem C8_symm_of_costs_eq (A B : List α) (c sc : ℕ) :
    distance A B c c sc = distance B A c c sc := by
  have h1 := dist_isLeast A B c c sc
  have h2 := dist_isLeast B A c c sc
  have hset : {x | ECost c c sc B A x} = {x | ECost c c sc A B x} := by
    ext x
    simp only [Set.mem_setOf_eq]
    exact ⟨fun h => ecost_swap h, fun h => ecost_swap h⟩
  rw [hset] at h2
  exact IsLeast.unique h1 h2

/-- Claim C9: with the uniform cost triple `(1,1,1)` the distance satisfies
the triangle inequality. -/
theorem C9_triangle (A B C : List α) :
    distance A C 1 1 1 ≤ distance A B 1 1 1 + distance B C 1 1 1 := by
  have h1 := dist_isLeast A B 1 1 1
  have h2 := dist_isLeast B C 1 1 1
  have h3 := dist_isLeast A C 1 1 1
  obtain ⟨c3, hle, hc3⟩ := ecost_trans (A.length + B.length + C.length) A B C _ _
    (le_refl _) h1.1 h2.1
  exact le_trans (h3.2 hc3) hle

/-- Claim C10: every record returned by `edit_ops()` carries in-range indices:
Match and Substitution have `i < m` and `j < n`, Deletion has `i < m` and
`j ≤ n`, Insertion has `i ≤ m` and `j < n`. -/
theorem C10_bounds (s t : List α) (ic dc sc : ℕ) (l : List Edit)
    (h : editOps s t ic dc sc = some l) :
    ∀ e ∈ l,
      ((e.type = EType.Match ∨ e.type = EType.Substitution) →
        e.i < s.length ∧ e.j < t.length) ∧
      (e.type = EType.Deletion → e.i < s.length ∧ e.j ≤ t.length) ∧
      (e.type = EType.Insertion → e.i ≤ s.length ∧ e.j < t.length) := by
  obtain ⟨es, haux, _, hbounds, _⟩ := bt_master s t ic dc sc (s.length + t.length)
    s.length t.length (le_refl _) (le_refl _) (le_refl _)
  unfold editOps editsRaw at h
  rw [haux] at h
  simp at h
  subst h
  intro e he
  have he2 : e ∈ es := List.mem_reverse.mp he
  have hb := hbounds e he2
  obtain ⟨ty, ei, ej⟩ := e
  cases ty with
  | Match =>
    refine ⟨fun _ => hb, fun hh => ?_, fun hh => ?_⟩
    · cases hh
    · cases hh
  | Substitution =>
    refine ⟨fun _ => hb, fun hh => ?_, fun hh => ?_⟩
    · cases hh
    · cases hh
  | Deletion =>
    refine ⟨fun hh => ?_, fun _ => hb, fun hh => ?_⟩
    · rcases hh with hh | hh <;> cases hh
    · cases hh
  | Insertion =>
    refine ⟨fun hh => ?_, fun hh => ?_, fun _ => hb⟩
    · rcases hh with hh | hh <;> cases hh
    · cases hh

/-- Witness for C10 at a concrete instance. -/
theorem C10_bounds_w :
    editOps [0] [1] 1 1 1 = some [⟨EType.Substitution, 0, 0⟩] ∧
    ∀ e ∈ ([⟨EType.Substitution, 0, 0⟩] : List Edit),
      ((e.type = EType.Match ∨ e.type = EType.Substitution) →
        e.i < ([0] : List ℕ).length ∧ e.j < ([1] : List ℕ).length) ∧
      (e.type = EType.Deletion → e.i < ([0] : List ℕ).length ∧ e.j ≤ ([1] : List ℕ).length) ∧
      (e.type = EType.Insertion → e.i ≤ ([0] : List ℕ).length ∧ e.j < ([1] : List ℕ).length) :=
  ⟨by decide, C10_bounds [0] [1] 1 1 1 [⟨EType.Substitution, 0, 0⟩] (by decide)⟩

end Levenshtein
